import Mathlib

/-!
Shallow embedding of `livefs_edit/context.py` and the driver in
`livefs_edit/__main__.py`.

The program is a resource-orchestration engine: an `EditContext` owns a
scratch directory, a stack of live mounts, a cache of lazily created
squashfs edit sessions, a list of pre-repack hooks run in reverse order at
finalize time, and the top-level iso overlay.  The embedding models the
context object as the record `Ctx` and the outside world (filesystem
entries, live mounts, the trace of external commands and OS calls) as the
record `World`.  Every method of `EditContext` becomes a function from
`Ctx × World` (plus arguments) to an updated `Ctx × World`; fallible
methods additionally return an `Option String` carrying the raised error,
together with the state at the moment of the raise (Python mutates the
object in place, so the state at the raise point is observable by the
caller's `finally` block).

External side effects (running a subprocess, renames, copies, unlinks,
symlinks, directory removal) are recorded as `Event`s in an append-only
trace; the stdout of external tools (the boot-parameter introspection of
`xorriso`) is external data and is not modeled.
-/

namespace Livefs

/-- One step of Python's `os.path.join`: `os.path.join(a, b)`.  A component
beginning with a slash replaces the path built so far; otherwise a single
separator is inserted unless `a` is empty or already ends with one.
Slash tests are expressed on the character list of the string. -/
def startsSlash (s : String) : Bool :=
  s.data.head? == some '/'

/-- Test whether a string ends with a slash, on the character list. -/
def endsSlash (s : String) : Bool :=
  s.data.getLast? == some '/'

/-- Python `os.path.join(a, b)` for two components. -/
def osPathJoin2 (a b : String) : String :=
  if startsSlash b then b
  else if a = "" then b
  else if endsSlash a then a ++ b
  else a ++ "/" ++ b

/-- Python `os.path.join(base, *args)`. -/
def osPathJoin (base : String) (args : List String) : String :=
  args.foldl osPathJoin2 base

/-- Embedding of `_MountBase.p`: raises unless every component is relative,
then joins the mountpoint with the components.  `Except.error` models the
raised exception; no path is produced in that case. -/
def mountBaseP (mountpoint : String) (args : List String) : Except String String :=
  if args.any startsSlash then .error "no absolute paths here please"
  else .ok (osPathJoin mountpoint args)

/-- Embedding of `EditContext.p`: like `_MountBase.p` over the scratch
directory, except that the guard is skipped when `allow_abs` is true. -/
def contextP (dir : String) (args : List String) (allowAbs : Bool) : Except String String :=
  if !allowAbs && args.any startsSlash then .error "no absolute paths here please"
  else .ok (osPathJoin dir args)

/-- The shapes a member of `add_overlay`'s `lowers` argument can take
(`lowerdir_for` dispatches on the runtime type): a plain path string, a
`Mountpoint`, an `OverlayMountpoint` (kept as its `lowers`, `upperdir`
and `mountpoint` fields), or a nested list. -/
inductive Lower where
  | str (s : String)
  | mnt (device mountpoint : String)
  | ovl (lowers : List Lower) (upperdir mountpoint : String)
  | lst (ls : List Lower)

/-- Python `':'.join`. -/
def joinColon : List String → String
  | [] => ""
  | [x] => x
  | x :: y :: xs => x ++ ":" ++ joinColon (y :: xs)

mutual

/-- Embedding of the inner function `lowerdir_for` of
`EditContext.add_overlay`.  A string is itself; a `Mountpoint` contributes
`lower.p()`, i.e. its mountpoint; an `OverlayMountpoint` recurses on
`lower.lowers + [lower.upperdir]` (a list, whose last element is the plain
string `upperdir` and resolves to itself, so the result is the join of the
reversed resolved members with that upper first); a list joins the
resolved members in reverse order with `':'`. -/
def lowerdirFor : Lower → String
  | .str s => s
  | .mnt _ mp => mp
  | .ovl lowers up _ => joinColon (up :: (lowerdirList lowers).reverse)
  | .lst ls => joinColon (lowerdirList ls).reverse

/-- Pointwise `lowerdir_for` over a list (the comprehension
`[lowerdir_for(ll) for ll in lower]`). -/
def lowerdirList : List Lower → List String
  | [] => []
  | l :: ls => lowerdirFor l :: lowerdirList ls

end

mutual

/-- Modelled from the spec: the fully flattened expansion of a `lowers`
element, in registration order (a path is itself, a mount is its
mountpoint, a union layer contributes its own lowers followed by its
upper, a nested list is concatenated elementwise). -/
def flattenLower : Lower → List String
  | .str s => [s]
  | .mnt _ mp => [mp]
  | .ovl lowers up _ => flattenLowers lowers ++ [up]
  | .lst ls => flattenLowers ls

/-- Flattening of a list of `lowers` elements, in order. -/
def flattenLowers : List Lower → List String
  | [] => []
  | l :: ls => flattenLower l ++ flattenLowers ls

end

mutual

/-- Well-formedness of a `lowers` element: no empty nested list occurs
(an empty list would resolve to the empty string and contribute a spurious
empty component to the joined search string). -/
def lowerWF : Lower → Bool
  | .str _ => true
  | .mnt _ _ => true
  | .ovl lowers _ _ => lowersWF lowers
  | .lst ls => (!ls.isEmpty) && lowersWF ls

/-- Well-formedness of every member of a list of `lowers` elements. -/
def lowersWF : List Lower → Bool
  | [] => true
  | l :: ls => lowerWF l && lowersWF ls

end

/-- Embedding of the `Mountpoint` value object: one live mount. -/
structure Mountpoint where
  device : String
  mountpoint : String
deriving Repr, DecidableEq

/-- Embedding of `OverlayMountpoint`: the original (unflattened) lowers,
the private writable upper directory, and the merged mountpoint. -/
structure Ovl where
  lowers : List Lower
  upperdir : String
  mountpoint : String

/-- The closures registered through `add_pre_repack_hook`.  `anon` stands
for an arbitrary externally supplied hook, identified by a number;
`sysUnmount` is the closure built by `add_sys_mounts` (capturing the list
of pseudo-filesystem mountpoints and the resolv.conf path); `squashRepack`
is the closure built by `edit_squashfs` (capturing the squashfs name, the
merged target tree, the packed output path and the overlay's upperdir). -/
inductive Hook where
  | anon (id : Nat)
  | sysUnmount (mnts : List String) (resolvConf : String)
  | squashRepack (name target newSquash upperdir : String)
deriving Repr, DecidableEq

/-- Observable effects on the world outside the `EditContext` object:
subprocess invocations (`run`), mutation of the mount stack, hook
invocations (instrumentation marking the moment a hook is called), log
lines, and direct OS calls. -/
inductive Event where
  | cmd (args : List String)
  | stackRemove (mp : String)
  | hookRun (h : Hook)
  | log (msg : String)
  | osRename (src dst : String)
  | copyFile (src dst : String)
  | symlink (src dst : String)
  | unlink (p : String)
  | rmdir (p : String)
  | rmtree (p : String)
deriving Repr, DecidableEq

/-- State of the world outside the context object: a counter for fresh
scratch names (`tempfile.mkdtemp`), the set of existing paths, the
directory listings that matter to the program (the upper areas of
overlays), the set of live OS mounts, and the event trace. -/
structure World where
  counter : Nat
  existing : List String
  upper : List (String × List String)
  liveMounts : List String
  events : List Event
deriving Repr, DecidableEq

/-- Embedding of the `EditContext` object's own attributes. -/
structure Ctx where
  isoPath : String
  dir : String
  mounts : List String
  preRepackHooks : List Hook
  squashMounts : List (String × Mountpoint)
  copyOnTeardown : Option String
  isoOverlay : Option Ovl

/-- Append one event to the trace. -/
def push (w : World) (e : Event) : World :=
  { w with events := w.events ++ [e] }

/-- Embedding of `run(cmd)`: records the subprocess invocation. -/
def runCmd (w : World) (args : List String) : World :=
  push w (.cmd args)

/-- Embedding of `EditContext.log` (indentation is presentation only and
is not modeled). -/
def logw (w : World) (msg : String) : World :=
  push w (.log msg)

/-- Directory-listing lookup: newest entry for a key wins. -/
def lookupDir : List (String × List String) → String → List String
  | [], _ => []
  | (k, v) :: rest, d => if k = d then v else lookupDir rest d

/-- Embedding of `os.listdir(d)` (restricted to the directories the
program inspects, all initially empty). -/
def listdir (w : World) (d : String) : List String :=
  lookupDir w.upper d

/-- Replace the listing of directory `d`. -/
def setDir (w : World) (d : String) (v : List String) : World :=
  { w with upper := (d, v) :: w.upper }

/-- An external action writes one entry into directory `d` (overlayfs
routes writes through the merged tree into the upper area). -/
def addEntry (w : World) (d e : String) : World :=
  setDir w d (e :: listdir w d)

/-- Remove one entry from directory `d`. -/
def removeEntry (w : World) (d e : String) : World :=
  setDir w d ((listdir w d).erase e)

/-- Embedding of `OverlayMountpoint.unchanged`: true iff the upper area
holds no entries, recomputed from the current world on every call. -/
def Ovl.unchanged (o : Ovl) (w : World) : Bool :=
  (listdir w o.upperdir).isEmpty

/-- Embedding of `EditContext.tmpdir`: allocates a fresh directory under
`<dir>/.tmp` (`tempfile.mkdtemp(dir=self.p('.tmp'))`; the fresh name is
modeled by the world's counter, the `chmod` has no modeled effect). -/
def tmpdirOp (c : Ctx) (w : World) : String × World :=
  let d := osPathJoin2 (osPathJoin2 c.dir ".tmp") ("tmp" ++ toString w.counter)
  (d, { w with counter := w.counter + 1, existing := d :: w.existing })

/-- The command list built at the top of `EditContext.add_mount`. -/
def mountCmd (typ : Option String) (src : String) (options : Option String)
    (mp : String) : List String :=
  ["mount"] ++ (match typ with | some t => ["-t", t] | none => [])
    ++ [src] ++ (match options with | some o => ["-o", o] | none => []) ++ [mp]

/-- Embedding of `EditContext.add_mount`: builds the `mount` command,
allocates a scratch mountpoint when none is given, creates the mountpoint
directory if missing, runs the command, appends the mountpoint to the
mount stack and returns the handle. -/
def addMountOp (c : Ctx) (w : World) (typ : Option String) (src : String)
    (mp? : Option String) (options : Option String) : Ctx × World × Mountpoint :=
  let m := match mp? with
    | some m => (m, w)
    | none => tmpdirOp c w
  let mp := m.1
  let w := m.2
  let w := if mp ∈ w.existing then w else { w with existing := mp :: w.existing }
  let w := runCmd w (mountCmd typ src options mp)
  let w := { w with liveMounts := w.liveMounts ++ [mp] }
  ({ c with mounts := c.mounts ++ [mp] }, w, ⟨src, mp⟩)

/-- Embedding of `EditContext.umount`: `self._mounts.remove(mountpoint)`
followed by `run(['umount', mountpoint])`.  When the mountpoint is not on
the stack, `list.remove` raises before any command is run (the
`InvariantViolation` of the spec's error taxonomy); otherwise the stack
removal happens strictly before the `umount` invocation. -/
def umountOp (c : Ctx) (w : World) (mp : String) : (Ctx × World) × Option String :=
  if mp ∈ c.mounts then
    let c := { c with mounts := c.mounts.erase mp }
    let w := push w (.stackRemove mp)
    let w := runCmd w ["umount", mp]
    ((c, { w with liveMounts := w.liveMounts.erase mp }), none)
  else ((c, w), some "InvariantViolation")

/-- Unmount a list of mountpoints in order, stopping at the first raise
(the loop body of the `add_sys_mounts` teardown hook). -/
def umountAll (c : Ctx) (w : World) : List String → (Ctx × World) × Option String
  | [] => ((c, w), none)
  | m :: ms =>
    let r := umountOp c w m
    match r.2 with
    | some e => (r.1, some e)
    | none => umountAll r.1.1 r.1.2 ms

/-- Embedding of `EditContext.add_pre_repack_hook`: append to the list. -/
def addPreRepackHook (c : Ctx) (h : Hook) : Ctx :=
  { c with preRepackHooks := c.preRepackHooks ++ [h] }

/-- The fixed bundle of pseudo-filesystems mounted by `add_sys_mounts`,
in dependency order. -/
def sysMountSpecs : List (String × String) :=
  [("devtmpfs", "dev"), ("devpts", "dev/pts"), ("proc", "proc"),
   ("sysfs", "sys"), ("securityfs", "sys/kernel/security")]

/-- The mounting loop of `add_sys_mounts`: mounts each pseudo-filesystem
under the target and collects the resulting mountpoints in order. -/
def addSysMountsAux (c : Ctx) (w : World) (mountpoint : String) :
    List (String × String) → Ctx × World × List String
  | [] => (c, w, [])
  | (typ, rel) :: rest =>
    let r := addMountOp c w (some typ) typ (some (mountpoint ++ "/" ++ rel)) none
    let q := addSysMountsAux r.1 r.2.1 mountpoint rest
    (q.1, q.2.1, r.2.2.mountpoint :: q.2.2)

/-- Embedding of `EditContext.add_sys_mounts`: mounts the bundle, moves
the target's resolv.conf aside, copies the host's in, and registers the
teardown hook (which unmounts the bundle in reverse order and restores
the saved resolv.conf). -/
def addSysMountsOp (c : Ctx) (w : World) (mountpoint : String) : Ctx × World :=
  let t := addSysMountsAux c w mountpoint sysMountSpecs
  let resolv := mountpoint ++ "/etc/resolv.conf"
  let w := push t.2.1 (.osRename resolv (resolv ++ ".tmp"))
  let w := push w (.copyFile "/etc/resolv.conf" resolv)
  (addPreRepackHook t.1 (.sysUnmount t.2.2 resolv), w)

/-- The normalization at the top of `add_overlay`:
`if not isinstance(lowers, list): lowers = [lowers]`. -/
def normalizeLowers : Lower → List Lower
  | .lst ls => ls
  | x => [x]

/-- Embedding of `EditContext.add_overlay`: normalizes `lowers`,
allocates fresh upper and work directories, resolves the lowerdir search
string, mounts an overlay (at the given target or a fresh scratch
directory) and wraps the result, keeping the original lowers. -/
def addOverlayOp (c : Ctx) (w : World) (lowersArg : Lower) (mp? : Option String) :
    Ctx × World × Ovl :=
  let lowers := normalizeLowers lowersArg
  let u := tmpdirOp c w
  let upperdir := u.1
  let k := tmpdirOp c u.2
  let workdir := k.1
  let lowerdir := lowerdirFor (.lst lowers)
  let options := "lowerdir=" ++ lowerdir ++ ",upperdir=" ++ upperdir ++ ",workdir=" ++ workdir
  let r := addMountOp c k.2 (some "overlay") "overlay" mp? (some options)
  (r.1, r.2.1, ⟨lowers, upperdir, r.2.2.mountpoint⟩)

/-- Lookup in the `_squash_mounts` cache (`name in self._squash_mounts`). -/
def lookupSq : List (String × Mountpoint) → String → Option Mountpoint
  | [], _ => none
  | (k, v) :: rest, n => if k = n then some v else lookupSq rest n

/-- Embedding of `EditContext.mount_squash`: memoized read-only mount of
`old/iso/casper/<name>.squashfs` at `old/<name>`. -/
def mountSquash (c : Ctx) (w : World) (name : String) : Ctx × World × Mountpoint :=
  let tgt := osPathJoin2 c.dir ("old/" ++ name)
  let squash := osPathJoin2 c.dir ("old/iso/casper/" ++ name ++ ".squashfs")
  match lookupSq c.squashMounts name with
  | some m => (c, w, m)
  | none =>
    let r := addMountOp c w (some "squashfs") squash (some tgt) (some "ro")
    ({ r.1 with squashMounts := r.1.squashMounts ++ [(name, r.2.2)] }, r.2.1, r.2.2)

/-- Embedding of `EditContext.edit_squashfs`: mounts the named squashfs
(memoized), returns the target path immediately when it already exists,
otherwise builds an overlay over it at `new/<name>`, registers the repack
hook, then (by default) establishes the system-mounts bundle on the
merged tree.  Returns the updated state and the writable path. -/
def editSquashfs (c : Ctx) (w : World) (name : String) (addSys : Bool) :
    Ctx × World × String :=
  let r := mountSquash c w name
  let c := r.1
  let w := r.2.1
  let lower := r.2.2
  let tgt := osPathJoin2 c.dir ("new/" ++ name)
  if tgt ∈ w.existing then (c, w, tgt)
  else
    let ro := addOverlayOp c w (.mnt lower.device lower.mountpoint) (some tgt)
    let c := ro.1
    let w := logw ro.2.1 ("squashfs '" ++ name ++ "' now mounted at '" ++ tgt ++ "'")
    let newSquash := osPathJoin2 c.dir ("new/iso/casper/" ++ name ++ ".squashfs")
    let c := addPreRepackHook c (.squashRepack name tgt newSquash ro.2.2.upperdir)
    let p := if addSys then addSysMountsOp c w tgt else (c, w)
    (p.1, p.2, tgt)

/-- The `try: os.unlink(upperdir/etc/resolv.conf); os.rmdir(upperdir/etc)
except OSError: pass` block of the `edit_squashfs` repack hook: if the
unlink raises (entry absent) the rmdir is skipped; the rmdir raises (and
is swallowed) when the directory is non-empty or absent. -/
def tryCleanupResolv (w : World) (upperdir : String) : World :=
  let etc := upperdir ++ "/etc"
  if "resolv.conf" ∈ listdir w etc then
    let w := push (removeEntry w etc "resolv.conf") (.unlink (etc ++ "/resolv.conf"))
    if listdir w etc = [] ∧ "etc" ∈ listdir w upperdir then
      push (removeEntry w upperdir "etc") (.rmdir etc)
    else w
  else w

/-- Execution of one registered hook closure.  `anon` hooks have no
modeled effect; `sysUnmount` unmounts the bundle in reverse mount order
and restores the saved resolv.conf; `squashRepack` cleans the stray
resolver artifact from the upper area, skips with a log line when the
upper area is empty, and otherwise deletes and regenerates the packed
squashfs via `mksquashfs`. -/
def runHook (c : Ctx) (w : World) : Hook → (Ctx × World) × Option String
  | .anon _ => ((c, w), none)
  | .sysUnmount mnts resolv =>
    let r := umountAll c w mnts.reverse
    match r.2 with
    | some e => (r.1, some e)
    | none => ((r.1.1, push r.1.2 (.osRename (resolv ++ ".tmp") resolv)), none)
  | .squashRepack name tgt newSquash upperdir =>
    let w := tryCleanupResolv w upperdir
    if (listdir w upperdir).isEmpty then
      ((c, logw w ("no changes found in squashfs '" ++ name ++ "'")), none)
    else
      let w := logw w ("repacking squashfs '" ++ name ++ "'")
      let w := push w (.unlink newSquash)
      ((c, runCmd w ["mksquashfs", tgt, newSquash]), none)

/-- The hook-running loop of `repack_iso`/`repack_in_mounted`
(`for hook in reversed(self._pre_repack_hooks): hook()` receives the
already-reversed list here).  Each invocation is marked with a `hookRun`
event before the hook body executes; a raise stops the loop. -/
def runHooks (c : Ctx) (w : World) : List Hook → (Ctx × World) × Option String
  | [] => ((c, w), none)
  | h :: hs =>
    let w := push w (.hookRun h)
    let r := runHook c w h
    match r.2 with
    | some e => (r.1, some e)
    | none => runHooks r.1.1 r.1.2 hs

/-- Embedding of `EditContext.repack_iso`: runs the hooks in reverse
registration order; if the top-level overlay is unchanged, logs a no-op
and returns; otherwise queries the source image's boot parameters and
re-authors the iso at the destination.  (The boot options parsed from the
introspection tool's stdout are external data and are not modeled as
command arguments.)  Accessing `self._iso_overlay` before `mount_iso`
raises (`AttributeError` on `None`). -/
def repackIso (c : Ctx) (w : World) (destpath : String) : (Ctx × World) × Option String :=
  let r := runHooks c (logw w "running repack hooks") c.preRepackHooks.reverse
  match r.2 with
  | some e => (r.1, some e)
  | none =>
    let c := r.1.1
    let w := r.1.2
    match c.isoOverlay with
    | none => ((c, w), some "AttributeError")
    | some o =>
      if o.unchanged w then ((c, logw w "no changes!"), none)
      else
        let w := runCmd w ["xorriso", "-indev", c.isoPath, "-report_el_torito", "as_mkisofs"]
        let w := logw w "recreating ISO"
        ((c, runCmd w ["xorriso", "-as", "mkisofs", "-o", destpath, "-V",
            "Ubuntu custom", osPathJoin2 c.dir "new/iso"]), none)

/-- Embedding of `EditContext.repack_in_mounted`: same hook run and
unchanged check; when changes exist it only records the destination for
the deferred copy performed at teardown. -/
def repackInMounted (c : Ctx) (w : World) (destpath : String) : (Ctx × World) × Option String :=
  let r := runHooks c (logw w "running repack hooks") c.preRepackHooks.reverse
  match r.2 with
  | some e => (r.1, some e)
  | none =>
    let c := r.1.1
    let w := r.1.2
    match c.isoOverlay with
    | none => ((c, w), some "AttributeError")
    | some o =>
      if o.unchanged w then ((c, logw w "no changes!"), none)
      else (({ c with copyOnTeardown := some destpath },
             logw w "preparing to do the final copy"), none)

/-- One iteration of the teardown loop: make the mount recursively
private, recursively unmount it (detaching everything still mounted at or
beneath it). -/
def teardownStep (w : World) (m : String) : World :=
  let w := runCmd w ["mount", "--make-rprivate", m]
  let w := runCmd w ["umount", "-R", m]
  { w with liveMounts := w.liveMounts.filter (fun x => !(x == m || (m ++ "/").isPrefixOf x)) }

/-- The events one teardown-loop iteration appends. -/
def teardownStepEvents (m : String) : List Event :=
  [.cmd ["mount", "--make-rprivate", m], .cmd ["umount", "-R", m]]

/-- The events the deferred-copy step of teardown appends. -/
def teardownCopyEvents (c : Ctx) : List Event :=
  match c.copyOnTeardown with
  | some d => [.log "copy contents to mountpoint now",
               .cmd ["cp", "-aT", osPathJoin2 c.dir "new/iso", d]]
  | none => []

/-- Embedding of `EditContext.teardown`: unmounts every entry remaining on
the mount stack in reverse order with a recursive detach, performs the
deferred directory copy when one was recorded, then removes the scratch
directory tree.  The `_mounts` attribute itself is not mutated by the
loop. -/
def teardown (c : Ctx) (w : World) : Ctx × World :=
  let w := c.mounts.reverse.foldl teardownStep w
  let w := match c.copyOnTeardown with
    | some d => runCmd (logw w "copy contents to mountpoint now")
        ["cp", "-aT", osPathJoin2 c.dir "new/iso", d]
    | none => w
  let w := push w (.rmtree c.dir)
  (c, { w with existing :=
        w.existing.filter (fun p => !(p == c.dir || (c.dir ++ "/").isPrefixOf p)) })

/-- Embedding of `EditContext.mount_iso`: when the source is not already
mounted, loop-mounts the iso at `old/iso`; otherwise makes `old`, places a
symlink to the already-mounted directory at `old/iso` and builds the
`Mountpoint` handle directly, with no mount command and no mount-stack
entry.  Either way, the top-level overlay is then built over the handle at
`new/iso`. -/
def mountIso (c : Ctx) (w : World) (alreadyMounted : Bool) : Ctx × World :=
  let oi := osPathJoin2 c.dir "old/iso"
  let r :=
    if !alreadyMounted then
      addMountOp c w (some "iso9660") c.isoPath (some oi) (some "loop,ro")
    else
      let old := osPathJoin2 c.dir "old"
      let w := if old ∈ w.existing then w else { w with existing := old :: w.existing }
      let w := push { w with existing := oi :: w.existing } (.symlink c.isoPath oi)
      (c, w, (⟨c.isoPath, oi⟩ : Mountpoint))
  let ro := addOverlayOp r.1 r.2.1 (.mnt r.2.2.device r.2.2.mountpoint)
      (some (osPathJoin2 c.dir "new/iso"))
  ({ ro.1 with isoOverlay := some ro.2.2 }, ro.2.1)

/-- The edits the driver can apply between `mount_iso` and finalize: a
lazy squashfs edit session, a raw mount, an explicit unmount, an external
write into a directory (how actions mutate the writable tree), and an
action that raises. -/
inductive Action where
  | editSquash (name : String) (sys : Bool)
  | rawMount (typ src mp : String)
  | rawUmount (mp : String)
  | writeUpper (d entry : String)
  | err (msg : String)

/-- Apply one action (`func(ctxt, **kw)` in the driver loop). -/
def applyAction (c : Ctx) (w : World) : Action → (Ctx × World) × Option String
  | .editSquash n s =>
    let r := editSquashfs c w n s
    ((r.1, r.2.1), none)
  | .rawMount t src mp =>
    let r := addMountOp c w (some t) src (some mp) none
    ((r.1, r.2.1), none)
  | .rawUmount mp => umountOp c w mp
  | .writeUpper d e => ((c, addEntry w d e), none)
  | .err m => ((c, w), some m)

/-- The driver's action loop: apply actions in order, stopping at the
first raise but retaining the state at the raise point. -/
def runActions (c : Ctx) (w : World) : List Action → (Ctx × World) × Option String
  | [] => ((c, w), none)
  | a :: rest =>
    let r := applyAction c w a
    match r.2 with
    | some e => (r.1, some e)
    | none => runActions r.1.1 r.1.2 rest

/-- The finalize step of the driver: with no destination do nothing;
with a directory destination run `repack_in_mounted`; otherwise run
`repack_iso`, followed by the in-place rename when requested. -/
def mainFinalize (c : Ctx) (w : World) (dest : Option String)
    (destIsDir inplace : Bool) : (Ctx × World) × Option String :=
  match dest with
  | none => ((c, w), none)
  | some d =>
    if destIsDir then repackInMounted c w d
    else
      let q := repackIso c w d
      match q.2 with
      | some e => (q.1, some e)
      | none =>
        if inplace then ((q.1.1, push q.1.2 (.osRename d q.1.1.isoPath)), none)
        else (q.1, none)

/-- Embedding of the `try/finally` tail of `__main__.main`: run the
actions; when none raised, finalize; and in every case — success, action
raise, or finalize raise — run `teardown` on the state reached. -/
def mainRun (c : Ctx) (w : World) (acts : List Action) (dest : Option String)
    (destIsDir inplace : Bool) : (Ctx × World) × Option String :=
  let r := runActions c w acts
  let r2 := match r.2 with
    | some e => (r.1, some e)
    | none => mainFinalize r.1.1 r.1.2 dest destIsDir inplace
  (teardown r2.1.1 r2.1.2, r2.2)

/-- The events appended by the teardown unmount loop over a list of
mountpoints, in order. -/
def teardownLoopEvents : List String → List Event
  | [] => []
  | m :: rest => teardownStepEvents m ++ teardownLoopEvents rest

/-- A fresh world for concrete instantiations. -/
def w0 : World := ⟨0, [], [], [], []⟩

/-- A sample top-level overlay whose upper area is empty. -/
def o0 : Ovl := ⟨[.str "/cdrom"], "/scratch/u", "/scratch/new/iso"⟩

/-- A sample context directly after `mount_iso`, with no mounts recorded. -/
def ctx0 : Ctx := ⟨"/src.iso", "/scratch", [], [], [], none, some o0⟩

/-- A sample context with one mount on the stack. -/
def ctx1 : Ctx := { ctx0 with mounts := ["/mnt1"] }

/-- The hook invocations recorded in an event trace, in execution order. -/
def hookTrace (evs : List Event) : List Hook :=
  evs.filterMap (fun e => match e with | .hookRun h => some h | _ => none)

/-!  Helper lemmas. -/

/-- String append is cancellative on the left. -/
theorem strAppendLeftCancel {d s t : String} (h : d ++ s = d ++ t) : s = t := by
  have h2 : d.data ++ s.data = d.data ++ t.data := by
    simpa [String.data_append] using congrArg String.data h
  have h3 := List.append_cancel_left h2
  cases s
  cases t
  exact congrArg String.mk h3

/-- String append is cancellative on the right. -/
theorem strAppendRightCancel {s p q : String} (h : p ++ s = q ++ s) : p = q := by
  have h2 : p.data ++ s.data = q.data ++ s.data := by
    simpa [String.data_append] using congrArg String.data h
  have h3 := List.append_cancel_right h2
  cases p
  cases q
  exact congrArg String.mk h3

/-- Joining a directory with two distinct relative components gives
distinct paths. -/
theorem osPathJoin2_ne (d : String) {s t : String} (hs : startsSlash s = false)
    (ht : startsSlash t = false) (hne : s ≠ t) : osPathJoin2 d s ≠ osPathJoin2 d t := by
  unfold osPathJoin2
  rw [hs, ht]
  by_cases hd : d = ""
  · simpa [hd] using hne
  · by_cases he : endsSlash d
    · simp only [hd, he, if_false, if_true, Bool.false_eq_true]
      intro h
      exact hne (strAppendLeftCancel h)
    · simp only [hd, he, if_false, Bool.false_eq_true]
      intro h
      exact hne (strAppendLeftCancel h)

/-- Appending the same suffix to distinct strings gives distinct strings. -/
theorem strAppendNe {p q : String} (hne : p ≠ q) (n : String) : p ++ n ≠ q ++ n := by
  intro h
  exact hne (strAppendRightCancel h)

/-- A string beginning with a non-slash head keeps a non-slash head after
appending. -/
theorem startsSlash_append {p : String} (n : String) (c : Char) (rest : List Char)
    (hd : p.data = c :: rest) (hc : c ≠ '/') : startsSlash (p ++ n) = false := by
  unfold startsSlash
  rw [String.data_append, hd]
  simpa using hc

/-- Unfolding `joinColon` on a cons cell. -/
theorem joinColon_cons (x : String) (xs : List String) :
    joinColon (x :: xs) = if xs = [] then x else x ++ ":" ++ joinColon xs := by
  cases xs <;> simp [joinColon]

/-- `joinColon` splits over an append of two non-empty lists. -/
theorem joinColon_append {a b : List String} (ha : a ≠ []) (hb : b ≠ []) :
    joinColon (a ++ b) = joinColon a ++ ":" ++ joinColon b := by
  induction a with
  | nil => cases ha rfl
  | cons x xs ih =>
    cases xs with
    | nil =>
      cases b with
      | nil => cases hb rfl
      | cons y ys => simp [joinColon]
    | cons z zs =>
      have ih2 := ih (by simp)
      have step : (x :: z :: zs) ++ b = x :: ((z :: zs) ++ b) := by simp
      rw [step, joinColon_cons, joinColon_cons x (z :: zs)]
      have hne : (z :: zs) ++ b ≠ [] := by simp
      simp only [hne, if_false, List.cons_ne_nil, ih2]
      simp [String.append_assoc]

mutual

/-- A well-formed `lowers` element flattens to a non-empty list. -/
theorem flattenLower_ne_nil : ∀ l : Lower, lowerWF l = true → flattenLower l ≠ []
  | .str s, _ => by simp [flattenLower]
  | .mnt d mp, _ => by simp [flattenLower]
  | .ovl lowers up m, _ => by simp [flattenLower]
  | .lst ls, h => by
    have h2 : (!ls.isEmpty) = true ∧ lowersWF ls = true := by
      simpa [lowerWF, Bool.and_eq_true] using h
    have hne : ls ≠ [] := by
      cases ls with
      | nil => simp [List.isEmpty] at h2
      | cons a as => simp
    simpa [flattenLower] using flattenLowers_ne_nil ls hne h2.2

/-- A non-empty well-formed list of `lowers` elements flattens to a
non-empty list. -/
theorem flattenLowers_ne_nil : ∀ ls : List Lower, ls ≠ [] → lowersWF ls = true →
    flattenLowers ls ≠ []
  | [], h, _ => by cases h rfl
  | l :: ls, _, h => by
    have h2 : lowerWF l = true ∧ lowersWF ls = true := by
      simpa [lowersWF, Bool.and_eq_true] using h
    have hl := flattenLower_ne_nil l h2.1
    have hstep : flattenLowers (l :: ls) = flattenLower l ++ flattenLowers ls := by
      simp [flattenLowers]
    rw [hstep]
    intro hcontra
    exact hl (List.append_eq_nil.mp hcontra).1

end

mutual

/-- The recursive `lowerdir_for` resolver equals the join of the
flattened expansion in reverse order, on well-formed input. -/
theorem lowerdirFor_eq_flatten : ∀ l : Lower, lowerWF l = true →
    lowerdirFor l = joinColon (flattenLower l).reverse
  | .str s, _ => by simp [lowerdirFor, flattenLower, joinColon]
  | .mnt d mp, _ => by simp [lowerdirFor, flattenLower, joinColon]
  | .ovl lowers up m, h => by
    have hwf : lowersWF lowers = true := by simpa [lowerWF] using h
    have key := lowerdirList_eq_flatten lowers hwf
    have lhs : lowerdirFor (.ovl lowers up m)
        = joinColon (up :: (lowerdirList lowers).reverse) := by
      simp [lowerdirFor]
    have rhs : (flattenLower (.ovl lowers up m)).reverse
        = up :: (flattenLowers lowers).reverse := by
      simp [flattenLower]
    rw [lhs, rhs]
    cases lowers with
    | nil =>
      have h1 : lowerdirList ([] : List Lower) = [] := by simp [lowerdirList]
      have h2 : flattenLowers ([] : List Lower) = [] := by simp [flattenLowers]
      rw [h1, h2]
    | cons l2 ls2 =>
      have hld : (lowerdirList (l2 :: ls2)).reverse ≠ [] := by simp [lowerdirList]
      have hfl : (flattenLowers (l2 :: ls2)).reverse ≠ [] := by
        simpa using flattenLowers_ne_nil (l2 :: ls2) (by simp) hwf
      rw [joinColon_cons, joinColon_cons, if_neg hld, if_neg hfl, key]
  | .lst ls, h => by
    have h2 : (!ls.isEmpty) = true ∧ lowersWF ls = true := by
      simpa [lowerWF, Bool.and_eq_true] using h
    have lhs : lowerdirFor (.lst ls) = joinColon (lowerdirList ls).reverse := by
      simp [lowerdirFor]
    have rhs : flattenLower (.lst ls) = flattenLowers ls := by simp [flattenLower]
    rw [lhs, rhs]
    exact lowerdirList_eq_flatten ls h2.2

/-- List version of `lowerdirFor_eq_flatten`: joining the reversed
pointwise resolutions equals joining the reversed flattened expansion. -/
theorem lowerdirList_eq_flatten : ∀ ls : List Lower, lowersWF ls = true →
    joinColon (lowerdirList ls).reverse = joinColon (flattenLowers ls).reverse
  | [], _ => by simp [lowerdirList, flattenLowers]
  | l :: ls, h => by
    have h2 : lowerWF l = true ∧ lowersWF ls = true := by
      simpa [lowersWF, Bool.and_eq_true] using h
    have ihl := lowerdirFor_eq_flatten l h2.1
    have ihs := lowerdirList_eq_flatten ls h2.2
    have lhs : lowerdirList (l :: ls) = lowerdirFor l :: lowerdirList ls := by
      simp [lowerdirList]
    have rhs : flattenLowers (l :: ls) = flattenLower l ++ flattenLowers ls := by
      simp [flattenLowers]
    rw [lhs, rhs, List.reverse_cons, List.reverse_append]
    cases ls with
    | nil =>
      have h1 : lowerdirList ([] : List Lower) = [] := by simp [lowerdirList]
      have h2 : flattenLowers ([] : List Lower) = [] := by simp [flattenLowers]
      rw [h1, h2]
      simpa [joinColon] using ihl
    | cons l2 ls2 =>
      have hld : (lowerdirList (l2 :: ls2)).reverse ≠ [] := by simp [lowerdirList]
      have hfl : (flattenLowers (l2 :: ls2)).reverse ≠ [] := by
        simpa using flattenLowers_ne_nil (l2 :: ls2) (by simp) h2.2
      have hone : ([lowerdirFor l] : List String) ≠ [] := by simp
      have hflr : (flattenLower l).reverse ≠ [] := by
        simpa using flattenLower_ne_nil l h2.1
      rw [joinColon_append hld hone, joinColon_append hfl hflr, ihs, ihl]
      simp [joinColon]

end

/-!  World-projection lemmas. -/

@[simp] theorem push_counter (w : World) (e : Event) : (push w e).counter = w.counter := rfl

@[simp] theorem push_existing (w : World) (e : Event) : (push w e).existing = w.existing := rfl

@[simp] theorem push_upper (w : World) (e : Event) : (push w e).upper = w.upper := rfl

@[simp] theorem push_liveMounts (w : World) (e : Event) :
    (push w e).liveMounts = w.liveMounts := rfl

@[simp] theorem push_events (w : World) (e : Event) : (push w e).events = w.events ++ [e] := rfl

theorem runCmd_eq (w : World) (a : List String) : runCmd w a = push w (.cmd a) := rfl

theorem logw_eq (w : World) (m : String) : logw w m = push w (.log m) := rfl

@[simp] theorem tmpdirOp_fst (c : Ctx) (w : World) :
    (tmpdirOp c w).1 = osPathJoin2 (osPathJoin2 c.dir ".tmp") ("tmp" ++ toString w.counter) := rfl

@[simp] theorem tmpdirOp_counter (c : Ctx) (w : World) :
    (tmpdirOp c w).2.counter = w.counter + 1 := rfl

@[simp] theorem tmpdirOp_existing (c : Ctx) (w : World) :
    (tmpdirOp c w).2.existing = (tmpdirOp c w).1 :: w.existing := rfl

@[simp] theorem tmpdirOp_upper (c : Ctx) (w : World) : (tmpdirOp c w).2.upper = w.upper := rfl

@[simp] theorem tmpdirOp_liveMounts (c : Ctx) (w : World) :
    (tmpdirOp c w).2.liveMounts = w.liveMounts := rfl

@[simp] theorem tmpdirOp_events (c : Ctx) (w : World) : (tmpdirOp c w).2.events = w.events := rfl

/-!  Closed forms of the mount-layer operations. -/

/-- `add_mount` with an explicit mountpoint, in closed form. -/
theorem addMountOp_some (c : Ctx) (w : World) (typ : Option String) (src : String)
    (mp : String) (opts : Option String) :
    addMountOp c w typ src (some mp) opts =
      ({ c with mounts := c.mounts ++ [mp] },
       { w with existing := if mp ∈ w.existing then w.existing else mp :: w.existing,
                events := w.events ++ [Event.cmd (mountCmd typ src opts mp)],
                liveMounts := w.liveMounts ++ [mp] },
       ⟨src, mp⟩) := by
  by_cases hm : mp ∈ w.existing <;> simp [addMountOp, runCmd, push, hm]

/-- Appending a fresh cache entry makes it visible to lookup. -/
theorem lookupSq_append_self {l : List (String × Mountpoint)} {name : String}
    (m : Mountpoint) (h : lookupSq l name = none) :
    lookupSq (l ++ [(name, m)]) name = some m := by
  induction l with
  | nil => simp [lookupSq]
  | cons p rest ih =>
    obtain ⟨k, v⟩ := p
    by_cases hk : k = name
    · simp [lookupSq, hk] at h
    · simp only [List.cons_append, lookupSq, hk, if_neg hk] at h ⊢
      exact ih h

/-- `mount_squash` on a cache hit returns the cached handle unchanged. -/
theorem mountSquash_hit (c : Ctx) (w : World) (name : String) (m : Mountpoint)
    (hc : lookupSq c.squashMounts name = some m) : mountSquash c w name = (c, w, m) := by
  simp [mountSquash, hc]

/-- `mount_squash` on a cache miss performs the read-only mount and
records the handle, in closed form. -/
theorem mountSquash_miss (c : Ctx) (w : World) (name : String)
    (hc : lookupSq c.squashMounts name = none) :
    mountSquash c w name =
      (let tgt := osPathJoin2 c.dir ("old/" ++ name)
       let squash := osPathJoin2 c.dir ("old/iso/casper/" ++ name ++ ".squashfs")
       ({ c with mounts := c.mounts ++ [tgt],
                 squashMounts := c.squashMounts ++ [(name, ⟨squash, tgt⟩)] },
        { w with existing := if tgt ∈ w.existing then w.existing else tgt :: w.existing,
                 events := w.events ++ [Event.cmd (mountCmd (some "squashfs") squash (some "ro") tgt)],
                 liveMounts := w.liveMounts ++ [tgt] },
        ⟨squash, tgt⟩)) := by
  simp [mountSquash, hc, addMountOp_some]

/-- `add_overlay` onto an explicit target, in closed form. -/
theorem addOverlayOp_some (c : Ctx) (w : World) (la : Lower) (tgt : String) :
    addOverlayOp c w la (some tgt) =
      (let u := osPathJoin2 (osPathJoin2 c.dir ".tmp") ("tmp" ++ toString w.counter)
       let k := osPathJoin2 (osPathJoin2 c.dir ".tmp") ("tmp" ++ toString (w.counter + 1))
       let ex := k :: u :: w.existing
       let opts := "lowerdir=" ++ lowerdirFor (.lst (normalizeLowers la))
           ++ ",upperdir=" ++ u ++ ",workdir=" ++ k
       ({ c with mounts := c.mounts ++ [tgt] },
        { w with counter := w.counter + 1 + 1,
                 existing := if tgt ∈ ex then ex else tgt :: ex,
                 events := w.events ++ [Event.cmd (mountCmd (some "overlay") "overlay" (some opts) tgt)],
                 liveMounts := w.liveMounts ++ [tgt] },
        ⟨normalizeLowers la, u, tgt⟩)) := by
  simp [addOverlayOp, addMountOp_some, tmpdirOp]

/-- The context part of the `add_sys_mounts` mounting loop. -/
theorem sysAux_ctx (mp : String) : ∀ (l : List (String × String)) (c : Ctx) (w : World),
    (addSysMountsAux c w mp l).1
      = { c with mounts := c.mounts ++ l.map (fun pr => mp ++ "/" ++ pr.2) }
  | [], c, w => by simp [addSysMountsAux]
  | pr :: rest, c, w => by
    obtain ⟨t, rel⟩ := pr
    simp [addSysMountsAux, addMountOp_some, sysAux_ctx mp rest]

/-- The mountpoint list collected by the `add_sys_mounts` mounting loop. -/
theorem sysAux_mnts (mp : String) : ∀ (l : List (String × String)) (c : Ctx) (w : World),
    (addSysMountsAux c w mp l).2.2 = l.map (fun pr => mp ++ "/" ++ pr.2)
  | [], c, w => by simp [addSysMountsAux]
  | pr :: rest, c, w => by
    obtain ⟨t, rel⟩ := pr
    simp [addSysMountsAux, addMountOp_some, sysAux_mnts mp rest]

/-- The mounting loop of `add_sys_mounts` only adds to the existing
paths. -/
theorem sysAux_existing_mono (mp x : String) :
    ∀ (l : List (String × String)) (c : Ctx) (w : World),
    x ∈ w.existing → x ∈ (addSysMountsAux c w mp l).2.1.existing
  | [], c, w, h => by simpa [addSysMountsAux] using h
  | pr :: rest, c, w, h => by
    obtain ⟨t, rel⟩ := pr
    simp only [addSysMountsAux, addMountOp_some]
    apply sysAux_existing_mono mp x rest
    by_cases hm : (mp ++ "/" ++ rel) ∈ w.existing <;> simp [hm, h]

/-- The context part of `add_sys_mounts`: the bundle's mountpoints are
appended to the mount stack and one teardown hook is registered. -/
theorem addSysMountsOp_ctx (c : Ctx) (w : World) (mp : String) :
    (addSysMountsOp c w mp).1
      = { c with mounts := c.mounts ++ sysMountSpecs.map (fun pr => mp ++ "/" ++ pr.2),
                 preRepackHooks := c.preRepackHooks
                   ++ [.sysUnmount (sysMountSpecs.map (fun pr => mp ++ "/" ++ pr.2))
                        (mp ++ "/etc/resolv.conf")] } := by
  simp [addSysMountsOp, addPreRepackHook, sysAux_ctx, sysAux_mnts]

/-- `add_sys_mounts` only adds to the existing paths. -/
theorem addSysMountsOp_existing_mono (c : Ctx) (w : World) (mp x : String)
    (h : x ∈ w.existing) : x ∈ (addSysMountsOp c w mp).2.existing := by
  simpa [addSysMountsOp] using sysAux_existing_mono mp x sysMountSpecs c w h

/-- `edit_squashfs` when the squash mount is cached and the target
already exists: the state is untouched and the target path returned. -/
theorem editSquashfs_cached (c : Ctx) (w : World) (name : String) (b : Bool)
    (m : Mountpoint) (hc : lookupSq c.squashMounts name = some m)
    (ht : osPathJoin2 c.dir ("new/" ++ name) ∈ w.existing) :
    editSquashfs c w name b = (c, w, osPathJoin2 c.dir ("new/" ++ name)) := by
  simp [editSquashfs, mountSquash_hit c w name m hc, ht]

/-- After any `edit_squashfs` call: the scratch dir is unchanged, the
squash-mount cache holds the name, the target path exists, and the
returned path is the target. -/
theorem editSquashfs_post (c : Ctx) (w : World) (name : String) (b : Bool) :
    (editSquashfs c w name b).1.dir = c.dir
    ∧ (∃ m, lookupSq (editSquashfs c w name b).1.squashMounts name = some m)
    ∧ osPathJoin2 c.dir ("new/" ++ name) ∈ (editSquashfs c w name b).2.1.existing
    ∧ (editSquashfs c w name b).2.2 = osPathJoin2 c.dir ("new/" ++ name) := by
  have main : ∀ (c' : Ctx) (w' : World) (m : Mountpoint),
      lookupSq c'.squashMounts name = some m → c'.dir = c.dir →
      (∀ x, x ∈ w.existing → x ∈ w'.existing) →
      mountSquash c w name = (c', w', m) →
      (editSquashfs c w name b).1.dir = c.dir
      ∧ (∃ m2, lookupSq (editSquashfs c w name b).1.squashMounts name = some m2)
      ∧ osPathJoin2 c.dir ("new/" ++ name) ∈ (editSquashfs c w name b).2.1.existing
      ∧ (editSquashfs c w name b).2.2 = osPathJoin2 c.dir ("new/" ++ name) := by
    intro c' w' m hsq hdir hmono hms
    by_cases ht : osPathJoin2 c.dir ("new/" ++ name) ∈ w'.existing
    · refine ⟨?_, ⟨m, ?_⟩, ?_, ?_⟩ <;> simp [editSquashfs, hms, hdir, ht, hsq]
    · cases b with
      | false =>
        refine ⟨?_, ⟨m, ?_⟩, ?_, ?_⟩ <;>
          simp [editSquashfs, hms, hdir, ht, addOverlayOp_some, addPreRepackHook, hsq,
            logw_eq]
        split
        · next hcond => rcases hcond with h | h <;> simp [h]
        · simp
      | true =>
        refine ⟨?_, ⟨m, ?_⟩, ?_, ?_⟩ <;>
          simp [editSquashfs, hms, hdir, ht, addOverlayOp_some, addPreRepackHook,
            addSysMountsOp_ctx, logw_eq, hsq]
        apply addSysMountsOp_existing_mono
        split
        · next hcond => rcases hcond with h | h <;> simp [h]
        · simp
  cases hc : lookupSq c.squashMounts name with
  | some m =>
    exact main c w m hc rfl (fun x h => h) (mountSquash_hit c w name m hc)
  | none =>
    have hm := mountSquash_miss c w name hc
    simp only at hm
    refine main _ _ _ ?_ ?_ ?_ hm
    · exact lookupSq_append_self _ hc
    · rfl
    · intro x h
      by_cases hx : osPathJoin2 c.dir ("old/" ++ name) ∈ w.existing <;> simp [hx, h]

/-- C3: `edit_subfilesystem` is idempotent per name: a second call with
the same name (whatever the `add_sys_mounts` flag) returns the identical
writable path and leaves the entire state unchanged — no new mount, no
new overlay, no new hook. -/
theorem C3_edit_idempotent (c : Ctx) (w : World) (name : String) (b b' : Bool) :
    editSquashfs (editSquashfs c w name b).1 (editSquashfs c w name b).2.1 name b'
      = editSquashfs c w name b := by
  obtain ⟨hdir, ⟨m, hm⟩, hex, htgt⟩ := editSquashfs_post c w name b
  have h2 := editSquashfs_cached (editSquashfs c w name b).1
    (editSquashfs c w name b).2.1 name b' m hm (by rw [hdir]; exact hex)
  rw [h2, hdir, ← htgt]

/-!  Hook-trace lemmas. -/

@[simp] theorem hookTrace_nil : hookTrace [] = [] := rfl

@[simp] theorem hookTrace_append (a b : List Event) :
    hookTrace (a ++ b) = hookTrace a ++ hookTrace b := by
  simp [hookTrace, List.filterMap_append]

@[simp] theorem hookTrace_cons_cmd (a : List String) (t : List Event) :
    hookTrace (Event.cmd a :: t) = hookTrace t := by
  simp [hookTrace, List.filterMap_cons]

@[simp] theorem hookTrace_cons_log (m : String) (t : List Event) :
    hookTrace (Event.log m :: t) = hookTrace t := by
  simp [hookTrace, List.filterMap_cons]

@[simp] theorem hookTrace_cons_hookRun (h : Hook) (t : List Event) :
    hookTrace (Event.hookRun h :: t) = h :: hookTrace t := by
  simp [hookTrace, List.filterMap_cons]

@[simp] theorem hookTrace_anon_map (l : List Nat) :
    hookTrace (l.map (fun i => Event.hookRun (Hook.anon i))) = l.map Hook.anon := by
  induction l with
  | nil => rfl
  | cons i t ih => simp [ih]

@[simp] theorem hookTrace_anon_map_reverse (l : List Nat) :
    hookTrace ((l.map (fun i => Event.hookRun (Hook.anon i))).reverse)
      = (l.map Hook.anon).reverse := by
  induction l with
  | nil => rfl
  | cons i t ih => simp [List.reverse_cons, ih]

/-- Registering hooks by folding `add_pre_repack_hook` appends them in
registration order. -/
theorem foldAddHook_eq : ∀ (ids : List Nat) (c0 : Ctx),
    ids.foldl (fun a i => addPreRepackHook a (Hook.anon i)) c0
      = { c0 with preRepackHooks := c0.preRepackHooks ++ ids.map Hook.anon }
  | [], c0 => by
    show c0 = _
    simp
  | i :: ids, c0 => by
    show List.foldl _ (addPreRepackHook c0 (Hook.anon i)) ids = _
    rw [foldAddHook_eq ids]
    simp [addPreRepackHook]

/-- Running a list of externally supplied hooks appends one invocation
event per hook, in list order, and changes nothing else. -/
theorem runHooks_anon : ∀ (l : List Nat) (c : Ctx) (w : World),
    runHooks c w (l.map Hook.anon)
      = ((c, { w with events := w.events ++ l.map (fun i => Event.hookRun (Hook.anon i)) }),
         none)
  | [], c, w => by simp [runHooks]
  | i :: l, c, w => by
    simp [runHooks, runHook, push, runHooks_anon l]

/-- `repack_iso` on a context holding externally registered hooks runs
them in reverse registration order (and itself raises nothing). -/
theorem repackIso_hookTrace_anon (c : Ctx) (w : World) (d : String) (ids : List Nat)
    (o : Ovl) (hh : c.preRepackHooks = ids.map Hook.anon) (ho : c.isoOverlay = some o) :
    ∃ r1, repackIso c w d = (r1, none)
      ∧ hookTrace r1.2.events = hookTrace w.events ++ (ids.map Hook.anon).reverse := by
  have hrev : c.preRepackHooks.reverse = ids.reverse.map Hook.anon := by
    simp [hh]
  have hrun := runHooks_anon ids.reverse c (logw w "running repack hooks")
  simp only [repackIso, hrev, hrun, ho]
  cases hu : o.unchanged { logw w "running repack hooks" with
      events := (logw w "running repack hooks").events
        ++ ids.reverse.map (fun i => Event.hookRun (Hook.anon i)) } with
  | true => exact ⟨_, rfl, by simp [logw_eq, push]⟩
  | false => exact ⟨_, rfl, by simp [logw_eq, push, runCmd_eq]⟩

/-- `repack_in_mounted` on a context holding externally registered hooks
runs them in reverse registration order (and itself raises nothing). -/
theorem repackInMounted_hookTrace_anon (c : Ctx) (w : World) (d : String) (ids : List Nat)
    (o : Ovl) (hh : c.preRepackHooks = ids.map Hook.anon) (ho : c.isoOverlay = some o) :
    ∃ r2, repackInMounted c w d = (r2, none)
      ∧ hookTrace r2.2.events = hookTrace w.events ++ (ids.map Hook.anon).reverse := by
  have hrev : c.preRepackHooks.reverse = ids.reverse.map Hook.anon := by
    simp [hh]
  have hrun := runHooks_anon ids.reverse c (logw w "running repack hooks")
  simp only [repackInMounted, hrev, hrun, ho]
  cases hu : o.unchanged { logw w "running repack hooks" with
      events := (logw w "running repack hooks").events
        ++ ids.reverse.map (fun i => Event.hookRun (Hook.anon i)) } with
  | true => exact ⟨_, rfl, by simp [logw_eq, push]⟩
  | false => exact ⟨_, rfl, by simp [logw_eq, push]⟩

/-- C1: pre-repack hooks registered through `add_pre_repack_hook` are
executed by finalize (`repack_iso` as well as `repack_in_mounted`) in the
exact reverse of registration order: hooks registered `[A, B, C]` are
invoked `[C, B, A]`, as recorded by the invocation trace. -/
theorem C1_hooks_run_in_reverse (c0 : Ctx) (w : World) (d1 d2 : String) (ids : List Nat)
    (o : Ovl) (h0 : c0.preRepackHooks = []) (ho : c0.isoOverlay = some o) :
    ∃ r1 r2,
      repackIso (ids.foldl (fun a i => addPreRepackHook a (Hook.anon i)) c0) w d1
        = (r1, none)
      ∧ repackInMounted (ids.foldl (fun a i => addPreRepackHook a (Hook.anon i)) c0) w d2
        = (r2, none)
      ∧ hookTrace r1.2.events = hookTrace w.events ++ (ids.map Hook.anon).reverse
      ∧ hookTrace r2.2.events = hookTrace w.events ++ (ids.map Hook.anon).reverse := by
  rw [foldAddHook_eq ids c0, h0]
  obtain ⟨r1, e1, t1⟩ := repackIso_hookTrace_anon
    { c0 with preRepackHooks := [] ++ ids.map Hook.anon } w d1 ids o (by simp) ho
  obtain ⟨r2, e2, t2⟩ := repackInMounted_hookTrace_anon
    { c0 with preRepackHooks := [] ++ ids.map Hook.anon } w d2 ids o (by simp) ho
  exact ⟨r1, r2, e1, e2, t1, t2⟩

/-- Witness for C1: three hooks registered `[0, 1, 2]` on a fresh context
are executed `[2, 1, 0]`. -/
theorem C1_witness :
    ∃ r1 r2,
      repackIso (([0, 1, 2] : List Nat).foldl (fun a i => addPreRepackHook a (Hook.anon i)) ctx0)
          w0 "/d1.iso" = (r1, none)
      ∧ repackInMounted
          (([0, 1, 2] : List Nat).foldl (fun a i => addPreRepackHook a (Hook.anon i)) ctx0)
          w0 "/d2" = (r2, none)
      ∧ hookTrace r1.2.events
          = hookTrace w0.events ++ (([0, 1, 2] : List Nat).map Hook.anon).reverse
      ∧ hookTrace r2.2.events
          = hookTrace w0.events ++ (([0, 1, 2] : List Nat).map Hook.anon).reverse :=
  C1_hooks_run_in_reverse ctx0 w0 "/d1.iso" "/d2" [0, 1, 2] o0 rfl rfl

/-!  Hook-execution preservation lemmas. -/

/-- `umount` never touches the deferred-copy destination. -/
theorem umountOp_copy (c : Ctx) (w : World) (mp : String) :
    (umountOp c w mp).1.1.copyOnTeardown = c.copyOnTeardown := by
  by_cases h : mp ∈ c.mounts <;> simp [umountOp, h]

/-- The hook unmount loop never touches the deferred-copy destination. -/
theorem umountAll_copy : ∀ (l : List String) (c : Ctx) (w : World),
    (umountAll c w l).1.1.copyOnTeardown = c.copyOnTeardown
  | [], c, w => rfl
  | m :: ms, c, w => by
    simp only [umountAll]
    cases hr : (umountOp c w m).2 with
    | some e => simpa [hr] using umountOp_copy c w m
    | none =>
      simp only [hr]
      rw [umountAll_copy ms]
      exact umountOp_copy c w m

/-- No hook body touches the deferred-copy destination. -/
theorem runHook_copy (h : Hook) (c : Ctx) (w : World) :
    (runHook c w h).1.1.copyOnTeardown = c.copyOnTeardown := by
  cases h with
  | anon i => rfl
  | sysUnmount mnts resolv =>
    simp only [runHook]
    cases hr : (umountAll c w mnts.reverse).2 with
    | some e => simpa [hr] using umountAll_copy mnts.reverse c w
    | none => simpa [hr] using umountAll_copy mnts.reverse c w
  | squashRepack name tgt ns up =>
    simp only [runHook]
    split <;> rfl

/-- Running hooks never touches the deferred-copy destination. -/
theorem runHooks_copy : ∀ (l : List Hook) (c : Ctx) (w : World),
    (runHooks c w l).1.1.copyOnTeardown = c.copyOnTeardown
  | [], c, w => rfl
  | h :: hs, c, w => by
    simp only [runHooks]
    cases hr : (runHook c (push w (.hookRun h)) h).2 with
    | some e => simpa [hr] using runHook_copy h c (push w (.hookRun h))
    | none =>
      simp only [hr]
      rw [runHooks_copy hs]
      exact runHook_copy h c (push w (.hookRun h))

/-- `umount` emits no image-authoring command. -/
theorem umountOp_xor (c : Ctx) (w : World) (mp : String) (args : List String)
    (h : Event.cmd ("xorriso" :: args) ∈ (umountOp c w mp).1.2.events) :
    Event.cmd ("xorriso" :: args) ∈ w.events := by
  by_cases hm : mp ∈ c.mounts <;> simp [umountOp, hm, push, runCmd] at h <;> tauto

/-- The hook unmount loop emits no image-authoring command. -/
theorem umountAll_xor : ∀ (l : List String) (c : Ctx) (w : World) (args : List String),
    Event.cmd ("xorriso" :: args) ∈ (umountAll c w l).1.2.events →
    Event.cmd ("xorriso" :: args) ∈ w.events
  | [], c, w, args, h => h
  | m :: ms, c, w, args, h => by
    simp only [umountAll] at h
    cases hr : (umountOp c w m).2 with
    | some e =>
      rw [hr] at h
      exact umountOp_xor c w m args h
    | none =>
      rw [hr] at h
      exact umountOp_xor c w m args (umountAll_xor ms _ _ args h)

/-- The resolv-artifact cleanup emits no image-authoring command. -/
theorem tryCleanupResolv_xor (w : World) (up : String) (args : List String)
    (h : Event.cmd ("xorriso" :: args) ∈ (tryCleanupResolv w up).events) :
    Event.cmd ("xorriso" :: args) ∈ w.events := by
  simp only [tryCleanupResolv] at h
  split at h
  · split at h <;> simp [push, removeEntry, setDir] at h <;> tauto
  · exact h

/-- No hook body emits an image-authoring (`xorriso`) command. -/
theorem runHook_xor (hk : Hook) (c : Ctx) (w : World) (args : List String)
    (h : Event.cmd ("xorriso" :: args) ∈ (runHook c w hk).1.2.events) :
    Event.cmd ("xorriso" :: args) ∈ w.events := by
  cases hk with
  | anon i => exact h
  | sysUnmount mnts resolv =>
    simp only [runHook] at h
    cases hr : (umountAll c w mnts.reverse).2 with
    | some e =>
      rw [hr] at h
      exact umountAll_xor mnts.reverse c w args h
    | none =>
      rw [hr] at h
      simp only [push_events] at h
      rcases List.mem_append.mp h with h2 | h2
      · exact umountAll_xor mnts.reverse c w args h2
      · simp at h2
  | squashRepack name tgt ns up =>
    simp only [runHook] at h
    split at h
    · simp only [logw_eq, push_events] at h
      rcases List.mem_append.mp h with h2 | h2
      · exact tryCleanupResolv_xor w up args h2
      · simp at h2
    · simp only [logw_eq, runCmd_eq, push_events] at h
      rcases List.mem_append.mp h with h2 | h2
      · rcases List.mem_append.mp h2 with h3 | h3
        · rcases List.mem_append.mp h3 with h4 | h4
          · exact tryCleanupResolv_xor w up args h4
          · simp at h4
        · simp at h3
      · simp at h2

/-- Running hooks emits no image-authoring command. -/
theorem runHooks_xor : ∀ (l : List Hook) (c : Ctx) (w : World) (args : List String),
    Event.cmd ("xorriso" :: args) ∈ (runHooks c w l).1.2.events →
    Event.cmd ("xorriso" :: args) ∈ w.events
  | [], c, w, args, h => h
  | hk :: hs, c, w, args, h => by
    simp only [runHooks] at h
    have base : Event.cmd ("xorriso" :: args) ∈ (push w (.hookRun hk)).events →
        Event.cmd ("xorriso" :: args) ∈ w.events := by
      intro h2
      simp only [push_events] at h2
      rcases List.mem_append.mp h2 with h3 | h3
      · exact h3
      · simp at h3
    cases hr : (runHook c (push w (.hookRun hk)) hk).2 with
    | some e =>
      rw [hr] at h
      exact base (runHook_xor hk c (push w (.hookRun hk)) args h)
    | none =>
      rw [hr] at h
      exact base (runHook_xor hk c (push w (.hookRun hk)) args
        (runHooks_xor hs _ _ args h))

/-- C5: when the top-level overlay is unchanged after all hooks have
run, both finalize modes return having only logged the no-op: the result
state is exactly the post-hook state plus the `no changes!` log line, no
copy destination is recorded (the deferred-copy field is exactly what it
was before finalize), and no `xorriso` authoring command is ever emitted
beyond any already present before finalize, so the destination is
untouched. -/
theorem C5_unchanged_noop (c : Ctx) (w : World) (d1 d2 : String) (c1 : Ctx) (w1 : World)
    (o : Ovl)
    (h1 : runHooks c (logw w "running repack hooks") c.preRepackHooks.reverse
        = ((c1, w1), none))
    (h2 : c1.isoOverlay = some o)
    (h3 : o.unchanged w1 = true) :
    repackIso c w d1 = ((c1, logw w1 "no changes!"), none)
    ∧ repackInMounted c w d2 = ((c1, logw w1 "no changes!"), none)
    ∧ c1.copyOnTeardown = c.copyOnTeardown
    ∧ Event.log "no changes!" ∈ (logw w1 "no changes!").events
    ∧ (∀ args, Event.cmd ("xorriso" :: args) ∈ (logw w1 "no changes!").events
        → Event.cmd ("xorriso" :: args) ∈ w.events) := by
  refine ⟨?_, ?_, ?_, ?_, ?_⟩
  · simp [repackIso, h1, h2, h3]
  · simp [repackInMounted, h1, h2, h3]
  · have hc := runHooks_copy c.preRepackHooks.reverse c (logw w "running repack hooks")
    rw [h1] at hc
    exact hc
  · simp [logw_eq, push]
  · intro args hmem
    simp only [logw_eq, push_events] at hmem
    rcases List.mem_append.mp hmem with h4 | h4
    · have hx := runHooks_xor c.preRepackHooks.reverse c (logw w "running repack hooks") args
      rw [h1] at hx
      have h5 := hx h4
      simp only [logw_eq, push_events] at h5
      rcases List.mem_append.mp h5 with h6 | h6
      · exact h6
      · simp at h6
    · simp at h4

/-- Witness for C5: a context with no hooks and an untouched top-level
overlay finalizes as a no-op in both modes. -/
theorem C5_witness :
    repackIso ctx0 w0 "/out.iso"
      = ((ctx0, logw (logw w0 "running repack hooks") "no changes!"), none)
    ∧ repackInMounted ctx0 w0 "/outdir"
      = ((ctx0, logw (logw w0 "running repack hooks") "no changes!"), none)
    ∧ ctx0.copyOnTeardown = ctx0.copyOnTeardown
    ∧ Event.log "no changes!" ∈ (logw (logw w0 "running repack hooks") "no changes!").events
    ∧ (∀ args,
        Event.cmd ("xorriso" :: args)
            ∈ (logw (logw w0 "running repack hooks") "no changes!").events
        → Event.cmd ("xorriso" :: args) ∈ w0.events) :=
  C5_unchanged_noop ctx0 w0 "/out.iso" "/outdir" ctx0
    (logw w0 "running repack hooks") o0 rfl rfl rfl

/-- C7: in a fresh `edit_squashfs` session with `add_sys_mounts` true,
the system-mounts teardown hook is registered strictly after the repack
hook, so the reversed execution order runs the system-mounts teardown
(unmounting the bundle and restoring the saved resolv.conf) before the
session's repack hook. -/
theorem C7_sys_hook_registered_after_repack_hook (c : Ctx) (w : World) (name : String)
    (ht : osPathJoin2 c.dir ("new/" ++ name) ∉ w.existing) :
    ∃ up,
      (editSquashfs c w name true).1.preRepackHooks
        = c.preRepackHooks
          ++ [Hook.squashRepack name (osPathJoin2 c.dir ("new/" ++ name))
                (osPathJoin2 c.dir ("new/iso/casper/" ++ name ++ ".squashfs")) up,
              Hook.sysUnmount
                (sysMountSpecs.map (fun pr => osPathJoin2 c.dir ("new/" ++ name) ++ "/" ++ pr.2))
                (osPathJoin2 c.dir ("new/" ++ name) ++ "/etc/resolv.conf")]
      ∧ ((editSquashfs c w name true).1.preRepackHooks).reverse
        = Hook.sysUnmount
            (sysMountSpecs.map (fun pr => osPathJoin2 c.dir ("new/" ++ name) ++ "/" ++ pr.2))
            (osPathJoin2 c.dir ("new/" ++ name) ++ "/etc/resolv.conf")
          :: Hook.squashRepack name (osPathJoin2 c.dir ("new/" ++ name))
                (osPathJoin2 c.dir ("new/iso/casper/" ++ name ++ ".squashfs")) up
          :: c.preRepackHooks.reverse := by
  have hsl_new : startsSlash ("new/" ++ name) = false :=
    startsSlash_append name 'n' ['e', 'w', '/'] (by decide) (by decide)
  have hsl_old : startsSlash ("old/" ++ name) = false :=
    startsSlash_append name 'o' ['l', 'd', '/'] (by decide) (by decide)
  have hne2 : osPathJoin2 c.dir ("new/" ++ name) ≠ osPathJoin2 c.dir ("old/" ++ name) :=
    osPathJoin2_ne c.dir hsl_new hsl_old (strAppendNe (by decide) name)
  cases hc : lookupSq c.squashMounts name with
  | some m =>
    have hm := mountSquash_hit c w name m hc
    refine ⟨osPathJoin2 (osPathJoin2 c.dir ".tmp") ("tmp" ++ toString w.counter), ?_, ?_⟩ <;>
      simp [editSquashfs, hm, ht, addOverlayOp_some, addPreRepackHook,
        addSysMountsOp_ctx, logw_eq]
  | none =>
    have hm := mountSquash_miss c w name hc
    simp only at hm
    have ht2 : osPathJoin2 c.dir ("new/" ++ name) ∉
        (if osPathJoin2 c.dir ("old/" ++ name) ∈ w.existing then w.existing
         else osPathJoin2 c.dir ("old/" ++ name) :: w.existing) := by
      split
      · exact ht
      · intro hmem
        rcases List.mem_cons.mp hmem with h4 | h4
        · exact hne2 h4
        · exact ht h4
    refine ⟨osPathJoin2 (osPathJoin2 c.dir ".tmp") ("tmp" ++ toString w.counter), ?_, ?_⟩ <;>
      simp [editSquashfs, hm, ht2, addOverlayOp_some, addPreRepackHook,
        addSysMountsOp_ctx, logw_eq]

/-- Witness for C7: a fresh session named `rootfs` on the sample context
registers exactly the repack hook followed by the system-mounts hook. -/
theorem C7_witness :
    ∃ up,
      (editSquashfs ctx0 w0 "rootfs" true).1.preRepackHooks
        = ctx0.preRepackHooks
          ++ [Hook.squashRepack "rootfs" (osPathJoin2 ctx0.dir ("new/" ++ "rootfs"))
                (osPathJoin2 ctx0.dir ("new/iso/casper/" ++ "rootfs" ++ ".squashfs")) up,
              Hook.sysUnmount
                (sysMountSpecs.map
                  (fun pr => osPathJoin2 ctx0.dir ("new/" ++ "rootfs") ++ "/" ++ pr.2))
                (osPathJoin2 ctx0.dir ("new/" ++ "rootfs") ++ "/etc/resolv.conf")]
      ∧ ((editSquashfs ctx0 w0 "rootfs" true).1.preRepackHooks).reverse
        = Hook.sysUnmount
            (sysMountSpecs.map
              (fun pr => osPathJoin2 ctx0.dir ("new/" ++ "rootfs") ++ "/" ++ pr.2))
            (osPathJoin2 ctx0.dir ("new/" ++ "rootfs") ++ "/etc/resolv.conf")
          :: Hook.squashRepack "rootfs" (osPathJoin2 ctx0.dir ("new/" ++ "rootfs"))
                (osPathJoin2 ctx0.dir ("new/iso/casper/" ++ "rootfs" ++ ".squashfs")) up
          :: ctx0.preRepackHooks.reverse :=
  C7_sys_hook_registered_after_repack_hook ctx0 w0 "rootfs" (by simp [w0])

/-!  Teardown and driver lemmas. -/

/-- The unmount loop of teardown appends exactly its per-mount command
pairs, in list order. -/
theorem teardown_foldl_events : ∀ (l : List String) (w : World),
    (l.foldl teardownStep w).events = w.events ++ teardownLoopEvents l
  | [], w => by simp [teardownLoopEvents]
  | m :: l, w => by
    simp only [List.foldl_cons, teardownLoopEvents]
    rw [teardown_foldl_events l]
    simp [teardownStep, teardownStepEvents, runCmd_eq, push]

/-- One teardown iteration only filters the live-mount set. -/
theorem teardownStep_live (w : World) (x : String) :
    (teardownStep w x).liveMounts
      = w.liveMounts.filter (fun y => !(y == x || (x ++ "/").isPrefixOf y)) := by
  simp [teardownStep, runCmd_eq, push]

/-- A mountpoint already gone stays gone through the unmount loop. -/
theorem foldl_live_mono : ∀ (l : List String) (w : World) (m : String),
    m ∉ w.liveMounts → m ∉ (l.foldl teardownStep w).liveMounts
  | [], w, m, h => h
  | x :: l, w, m, h => by
    simp only [List.foldl_cons]
    apply foldl_live_mono l
    intro hmem
    rw [teardownStep_live] at hmem
    exact h (List.mem_of_mem_filter hmem)

/-- One teardown iteration detaches its own mountpoint. -/
theorem teardownStep_removes (w : World) (m : String) :
    m ∉ (teardownStep w m).liveMounts := by
  rw [teardownStep_live]
  intro hmem
  have h2 := (List.mem_filter.mp hmem).2
  simp at h2

/-- After the unmount loop, no mountpoint of the list remains live. -/
theorem teardown_foldl_live_not_mem : ∀ (l : List String) (w : World) (m : String),
    m ∈ l → m ∉ (l.foldl teardownStep w).liveMounts
  | [], w, m, h => absurd h (List.not_mem_nil m)
  | x :: l, w, m, h => by
    simp only [List.foldl_cons]
    rcases List.mem_cons.mp h with h1 | h1
    · subst h1
      exact foldl_live_mono l (teardownStep w m) m (teardownStep_removes w m)
    · exact teardown_foldl_live_not_mem l (teardownStep w x) m h1

/-- Specification of `teardown`: the context object is returned with its
mount list untouched; the appended events are exactly the reverse-order
recursive unmounts, then the deferred copy when recorded, then the
scratch-tree removal; the scratch directory no longer exists; and no
recorded mount remains live. -/
theorem teardown_spec (c : Ctx) (w : World) :
    (teardown c w).1 = c
    ∧ (teardown c w).2.events
        = w.events ++ teardownLoopEvents c.mounts.reverse ++ teardownCopyEvents c
          ++ [Event.rmtree c.dir]
    ∧ c.dir ∉ (teardown c w).2.existing
    ∧ ((teardown c w).2.liveMounts.filter (fun x => c.mounts.contains x)) = [] := by
  have hlm : (teardown c w).2.liveMounts
      = (c.mounts.reverse.foldl teardownStep w).liveMounts := by
    simp only [teardown]
    cases c.copyOnTeardown <;> simp [runCmd_eq, logw_eq, push]
  refine ⟨rfl, ?_, ?_, ?_⟩
  · simp only [teardown]
    cases hcp : c.copyOnTeardown with
    | none =>
      simp only [hcp, push_events, runCmd_eq, logw_eq]
      rw [teardown_foldl_events]
      simp [teardownCopyEvents, hcp]
    | some d =>
      simp only [hcp, push_events, runCmd_eq, logw_eq]
      rw [teardown_foldl_events]
      simp [teardownCopyEvents, hcp]
  · simp only [teardown]
    intro hmem
    have h2 := (List.mem_filter.mp hmem).2
    simp at h2
  · refine List.filter_eq_nil_iff.mpr ?_
    intro a ha hcont
    have ham : a ∈ c.mounts := by simpa using hcont
    rw [hlm] at ha
    exact teardown_foldl_live_not_mem c.mounts.reverse w a (by simpa using ham) ha

/-!  Scratch-directory preservation through every operation. -/

theorem umountOp_dir (c : Ctx) (w : World) (mp : String) :
    (umountOp c w mp).1.1.dir = c.dir := by
  by_cases h : mp ∈ c.mounts <;> simp [umountOp, h]

theorem umountAll_dir : ∀ (l : List String) (c : Ctx) (w : World),
    (umountAll c w l).1.1.dir = c.dir
  | [], c, w => rfl
  | m :: ms, c, w => by
    simp only [umountAll]
    cases hr : (umountOp c w m).2 with
    | some e => simpa [hr] using umountOp_dir c w m
    | none =>
      simp only [hr]
      rw [umountAll_dir ms]
      exact umountOp_dir c w m

theorem runHook_dir (h : Hook) (c : Ctx) (w : World) :
    (runHook c w h).1.1.dir = c.dir := by
  cases h with
  | anon i => rfl
  | sysUnmount mnts resolv =>
    simp only [runHook]
    cases hr : (umountAll c w mnts.reverse).2 with
    | some e => simpa [hr] using umountAll_dir mnts.reverse c w
    | none => simpa [hr] using umountAll_dir mnts.reverse c w
  | squashRepack name tgt ns up =>
    simp only [runHook]
    split <;> rfl

theorem runHooks_dir : ∀ (l : List Hook) (c : Ctx) (w : World),
    (runHooks c w l).1.1.dir = c.dir
  | [], c, w => rfl
  | h :: hs, c, w => by
    simp only [runHooks]
    cases hr : (runHook c (push w (.hookRun h)) h).2 with
    | some e => simpa [hr] using runHook_dir h c (push w (.hookRun h))
    | none =>
      simp only [hr]
      rw [runHooks_dir hs]
      exact runHook_dir h c (push w (.hookRun h))

theorem repackIso_dir (c : Ctx) (w : World) (d : String) :
    (repackIso c w d).1.1.dir = c.dir := by
  have hd := runHooks_dir c.preRepackHooks.reverse c (logw w "running repack hooks")
  simp only [repackIso]
  split
  · simpa using hd
  · split
    · simpa using hd
    · split
      · simpa using hd
      · simpa using hd

theorem repackInMounted_dir (c : Ctx) (w : World) (d : String) :
    (repackInMounted c w d).1.1.dir = c.dir := by
  have hd := runHooks_dir c.preRepackHooks.reverse c (logw w "running repack hooks")
  simp only [repackInMounted]
  split
  · simpa using hd
  · split
    · simpa using hd
    · split
      · simpa using hd
      · simpa using hd

theorem mainFinalize_dir (c : Ctx) (w : World) (dest : Option String) (dd ip : Bool) :
    (mainFinalize c w dest dd ip).1.1.dir = c.dir := by
  cases dest with
  | none => rfl
  | some d =>
    simp only [mainFinalize]
    split
    · exact repackInMounted_dir c w d
    · split
      · simpa using repackIso_dir c w d
      · split
        · simpa using repackIso_dir c w d
        · simpa using repackIso_dir c w d

theorem applyAction_dir (a : Action) (c : Ctx) (w : World) :
    (applyAction c w a).1.1.dir = c.dir := by
  cases a with
  | editSquash n s => simpa [applyAction] using (editSquashfs_post c w n s).1
  | rawMount t src mp => simp [applyAction, addMountOp_some]
  | rawUmount mp => simpa [applyAction] using umountOp_dir c w mp
  | writeUpper d e => rfl
  | err m => rfl

theorem runActions_dir : ∀ (acts : List Action) (c : Ctx) (w : World),
    (runActions c w acts).1.1.dir = c.dir
  | [], c, w => rfl
  | a :: rest, c, w => by
    simp only [runActions]
    cases hr : (applyAction c w a).2 with
    | some e => simpa [hr] using applyAction_dir a c w
    | none =>
      simp only [hr]
      rw [runActions_dir rest]
      exact applyAction_dir a c w

/-- C2 (amended): teardown appends, in order, the reverse-order
recursive unmount commands for every entry remaining on the mount stack,
the deferred directory copy when one was recorded, and the scratch-tree
removal; afterwards the scratch directory no longer exists and no
recorded mount remains live; and the driver runs teardown on the reached
state (whose scratch directory is the original one) on every path,
including action or finalize raises.  The recorded Python-level mount
list itself is returned untouched rather than emptied. -/
theorem C2_teardown_amended :
    (∀ (c : Ctx) (w : World),
        (teardown c w).1 = c
        ∧ (teardown c w).2.events
            = w.events ++ teardownLoopEvents c.mounts.reverse ++ teardownCopyEvents c
              ++ [Event.rmtree c.dir]
        ∧ c.dir ∉ (teardown c w).2.existing
        ∧ ((teardown c w).2.liveMounts.filter (fun x => c.mounts.contains x)) = [])
    ∧ (∀ (c : Ctx) (w : World) (acts : List Action) (dest : Option String) (dd ip : Bool),
        ∃ c' w' e, mainRun c w acts dest dd ip = (teardown c' w', e) ∧ c'.dir = c.dir) := by
  refine ⟨teardown_spec, ?_⟩
  intro c w acts dest dd ip
  cases hr : (runActions c w acts).2 with
  | some e =>
    refine ⟨(runActions c w acts).1.1, (runActions c w acts).1.2, some e, ?_,
      runActions_dir acts c w⟩
    simp [mainRun, hr]
  | none =>
    refine ⟨(mainFinalize (runActions c w acts).1.1 (runActions c w acts).1.2 dest dd ip).1.1,
      (mainFinalize (runActions c w acts).1.1 (runActions c w acts).1.2 dest dd ip).1.2,
      (mainFinalize (runActions c w acts).1.1 (runActions c w acts).1.2 dest dd ip).2, ?_, ?_⟩
    · simp [mainRun, hr]
    · rw [mainFinalize_dir]
      exact runActions_dir acts c w

/-- Counterexample for C2 as stated: the mount stack is not emptied by
`teardown` — on a context with one recorded mount, the recorded list
after teardown is still non-empty (the loop iterates over `_mounts`
without removing entries). -/
theorem C2_counterexample : (teardown ctx1 w0).1.mounts ≠ [] := by
  have h : (teardown ctx1 w0).1.mounts = ["/mnt1"] := rfl
  rw [h]
  simp

/-- Witness for C2 (amended) at a concrete context with one recorded
mount, and a driver run whose action raises. -/
theorem C2_witness :
    (teardown ctx1 w0).1 = ctx1
    ∧ (teardown ctx1 w0).2.events
        = w0.events ++ teardownLoopEvents ctx1.mounts.reverse ++ teardownCopyEvents ctx1
          ++ [Event.rmtree ctx1.dir]
    ∧ ctx1.dir ∉ (teardown ctx1 w0).2.existing
    ∧ ((teardown ctx1 w0).2.liveMounts.filter (fun x => ctx1.mounts.contains x)) = []
    ∧ ∃ c' w' e, mainRun ctx1 w0 [Action.err "boom"] (some "/out.iso") false false
        = (teardown c' w', e) ∧ c'.dir = ctx1.dir :=
  ⟨(C2_teardown_amended.1 ctx1 w0).1,
   (C2_teardown_amended.1 ctx1 w0).2.1,
   (C2_teardown_amended.1 ctx1 w0).2.2.1,
   (C2_teardown_amended.1 ctx1 w0).2.2.2,
   C2_teardown_amended.2 ctx1 w0 [Action.err "boom"] (some "/out.iso") false false⟩

/-- Membership in the teardown unmount-loop events characterizes the
unmounted mountpoints. -/
theorem mem_teardownLoopEvents_umount : ∀ (l : List String) (m : String),
    Event.cmd ["umount", "-R", m] ∈ teardownLoopEvents l ↔ m ∈ l
  | [], m => by simp [teardownLoopEvents]
  | x :: l, m => by
    simp [teardownLoopEvents, teardownStepEvents, mem_teardownLoopEvents_umount l]

/-- The mount stack after `mount_iso` on an already-mounted source: only
the overlay's mountpoint is appended. -/
theorem mountIso_true_mounts (c : Ctx) (w : World) :
    (mountIso c w true).1.mounts = c.mounts ++ [osPathJoin2 c.dir "new/iso"] := by
  by_cases ho : osPathJoin2 c.dir "old" ∈ w.existing <;>
    simp [mountIso, addOverlayOp_some, ho]

/-- The events of `mount_iso` on an already-mounted source: one symlink
and one overlay mount command — no mount of the source itself. -/
theorem mountIso_true_events (c : Ctx) (w : World) :
    ∃ opts, (mountIso c w true).2.events
      = w.events ++ [Event.symlink c.isoPath (osPathJoin2 c.dir "old/iso"),
                     Event.cmd ["mount", "-t", "overlay", "overlay", "-o", opts,
                       osPathJoin2 c.dir "new/iso"]] := by
  refine ⟨"lowerdir=" ++ osPathJoin2 c.dir "old/iso" ++ ",upperdir="
      ++ osPathJoin2 (osPathJoin2 c.dir ".tmp") ("tmp" ++ toString w.counter)
      ++ ",workdir="
      ++ osPathJoin2 (osPathJoin2 c.dir ".tmp") ("tmp" ++ toString (w.counter + 1)), ?_⟩
  by_cases ho : osPathJoin2 c.dir "old" ∈ w.existing <;>
    simp [mountIso, addOverlayOp_some, mountCmd, push, ho, normalizeLowers,
      lowerdirFor, lowerdirList, joinColon]

/-- C10: with an already-mounted source, `mount_iso` builds the source
handle directly: the source directory is never placed on the mount stack
(only the overlay's mountpoint is), no mount command is issued for it
(only a symlink plus the overlay mount), and teardown — which unmounts
exactly the recorded stack entries in reverse order — never unmounts the
source directory. -/
theorem C10_already_mounted_source_never_unmounted (c : Ctx) (w : World)
    (h : osPathJoin2 c.dir "old/iso" ∉ c.mounts) :
    (mountIso c w true).1.mounts = c.mounts ++ [osPathJoin2 c.dir "new/iso"]
    ∧ osPathJoin2 c.dir "old/iso" ∉ (mountIso c w true).1.mounts
    ∧ (∃ opts, (mountIso c w true).2.events
        = w.events ++ [Event.symlink c.isoPath (osPathJoin2 c.dir "old/iso"),
                       Event.cmd ["mount", "-t", "overlay", "overlay", "-o", opts,
                         osPathJoin2 c.dir "new/iso"]])
    ∧ (teardown (mountIso c w true).1 (mountIso c w true).2).2.events
        = (mountIso c w true).2.events
          ++ teardownLoopEvents ((mountIso c w true).1.mounts).reverse
          ++ teardownCopyEvents (mountIso c w true).1
          ++ [Event.rmtree ((mountIso c w true).1).dir]
    ∧ Event.cmd ["umount", "-R", osPathJoin2 c.dir "old/iso"]
        ∉ teardownLoopEvents ((mountIso c w true).1.mounts).reverse := by
  have hne : osPathJoin2 c.dir "old/iso" ≠ osPathJoin2 c.dir "new/iso" :=
    osPathJoin2_ne c.dir (by decide) (by decide) (by decide)
  have hmounts := mountIso_true_mounts c w
  have hnm : osPathJoin2 c.dir "old/iso" ∉ (mountIso c w true).1.mounts := by
    rw [hmounts]
    intro hmem
    rcases List.mem_append.mp hmem with h1 | h1
    · exact h h1
    · exact hne (List.mem_singleton.mp h1)
  refine ⟨hmounts, hnm, mountIso_true_events c w, (teardown_spec _ _).2.1, ?_⟩
  intro hmem
  rw [mem_teardownLoopEvents_umount] at hmem
  exact hnm (by simpa using hmem)

/-- Witness for C10 at the sample context with an empty mount stack. -/
theorem C10_witness :
    (mountIso ctx0 w0 true).1.mounts = ctx0.mounts ++ [osPathJoin2 ctx0.dir "new/iso"]
    ∧ osPathJoin2 ctx0.dir "old/iso" ∉ (mountIso ctx0 w0 true).1.mounts
    ∧ (∃ opts, (mountIso ctx0 w0 true).2.events
        = w0.events ++ [Event.symlink ctx0.isoPath (osPathJoin2 ctx0.dir "old/iso"),
                        Event.cmd ["mount", "-t", "overlay", "overlay", "-o", opts,
                          osPathJoin2 ctx0.dir "new/iso"]])
    ∧ (teardown (mountIso ctx0 w0 true).1 (mountIso ctx0 w0 true).2).2.events
        = (mountIso ctx0 w0 true).2.events
          ++ teardownLoopEvents ((mountIso ctx0 w0 true).1.mounts).reverse
          ++ teardownCopyEvents (mountIso ctx0 w0 true).1
          ++ [Event.rmtree ((mountIso ctx0 w0 true).1).dir]
    ∧ Event.cmd ["umount", "-R", osPathJoin2 ctx0.dir "old/iso"]
        ∉ teardownLoopEvents ((mountIso ctx0 w0 true).1.mounts).reverse :=
  C10_already_mounted_source_never_unmounted ctx0 w0 (by simp [ctx0])

/-- C4: `add_overlay` resolves the lowerdir search string by recursively
expanding every element of `lowers` (a path string is itself, a mount
handle is its mountpoint, a union-layer handle expands to its own lowers
plus its upper, a nested list is further flattened) and joining the
flattened list in reverse order; in particular, for a union layer built
over base path `P`, an overlay built with lowers `[L1]` resolves to the
search order `[L1.upper, P]`, joined as `L1.upper:P`. -/
theorem C4_lowerdir_is_reverse_flatten :
    (∀ l : Lower, lowerWF l = true → lowerdirFor l = joinColon (flattenLower l).reverse)
    ∧ (∀ P U M : String,
        (flattenLower (.lst [.ovl [.str P] U M])).reverse = [U, P]
      ∧ lowerdirFor (.lst [.ovl [.str P] U M]) = joinColon [U, P]) := by
  constructor
  · exact lowerdirFor_eq_flatten
  · intro P U M
    constructor
    · simp [flattenLower, flattenLowers]
    · simp [lowerdirFor, lowerdirList, joinColon]

/-- Witness for C4: the nested-overlay scenario, a union layer over base
`/base` with upper `/up` used as the single member of another overlay's
lowers, evaluated concretely. -/
theorem C4_witness :
    lowerdirFor (.lst [.ovl [.str "/base"] "/up" "/m"])
      = joinColon (flattenLower (.lst [.ovl [.str "/base"] "/up" "/m"])).reverse :=
  C4_lowerdir_is_reverse_flatten.1 (.lst [.ovl [.str "/base"] "/up" "/m"]) (by decide)

/-- C9: the path-join helpers raise on any absolute component before
producing a path, and otherwise join the mountpoint (respectively the
scratch directory, with `allow_abs` false) with the components. -/
theorem C9_p_guard (mnt dirS : String) (args : List String) :
    (args.any startsSlash = true →
        mountBaseP mnt args = .error "no absolute paths here please"
      ∧ contextP dirS args false = .error "no absolute paths here please")
    ∧ (args.any startsSlash = false →
        mountBaseP mnt args = .ok (osPathJoin mnt args)
      ∧ contextP dirS args false = .ok (osPathJoin dirS args)) := by
  constructor
  · intro h
    exact ⟨by simp [mountBaseP, h], by simp [contextP, h]⟩
  · intro h
    exact ⟨by simp [mountBaseP, h], by simp [contextP, h]⟩

/-- Witness for C9: an absolute argument is rejected by the mount-handle
helper, and relative arguments are joined by the workspace helper. -/
theorem C9_witness :
    mountBaseP "/mnt" ["/abs"] = .error "no absolute paths here please"
    ∧ contextP "/scratch" ["etc", "resolv.conf"] false
        = .ok (osPathJoin "/scratch" ["etc", "resolv.conf"]) :=
  ⟨((C9_p_guard "/mnt" "/x" ["/abs"]).1 (by decide)).1,
   ((C9_p_guard "/y" "/scratch" ["etc", "resolv.conf"]).2 (by decide)).2⟩

/-- C6: a union layer's `unchanged()` is true exactly when its upper area
has no entries; writing an entry into the upper area makes it false; and
it is a function of the current directory listings only (recomputed on
demand, not cached in the handle or affected by other world state). -/
theorem C6_unchanged_iff_empty_upper (w : World) (o : Ovl) (e : String) :
    (o.unchanged w = true ↔ listdir w o.upperdir = [])
    ∧ o.unchanged (addEntry w o.upperdir e) = false
    ∧ (∀ k ex lm evs, Ovl.unchanged o ⟨k, ex, w.upper, lm, evs⟩ = o.unchanged w) := by
  refine ⟨?_, ?_, ?_⟩
  · simp [Ovl.unchanged, List.isEmpty_iff, listdir]
  · simp [Ovl.unchanged, addEntry, setDir, listdir, lookupDir]
  · intro k ex lm evs
    simp [Ovl.unchanged, listdir]

/-- Witness for C6 at a concrete overlay and world. -/
theorem C6_witness :
    (Ovl.unchanged o0 w0 = true ↔ listdir w0 o0.upperdir = [])
    ∧ Ovl.unchanged o0 (addEntry w0 o0.upperdir "newfile") = false
    ∧ (∀ k ex lm evs, Ovl.unchanged o0 ⟨k, ex, w0.upper, lm, evs⟩ = Ovl.unchanged o0 w0) :=
  C6_unchanged_iff_empty_upper w0 o0 "newfile"

/-- C8: `umount` removes the mountpoint from the mount stack strictly
before invoking the OS unmount facility, and when the mountpoint is not
on the stack it raises (the spec's `InvariantViolation`) without running
any command or changing any state. -/
theorem C8_umount_requires_membership (c : Ctx) (w : World) (mp : String) :
    (mp ∈ c.mounts →
        umountOp c w mp =
          (({ c with mounts := c.mounts.erase mp },
            { w with events := w.events ++ [Event.stackRemove mp, Event.cmd ["umount", mp]],
                     liveMounts := w.liveMounts.erase mp }), none))
    ∧ (mp ∉ c.mounts → umountOp c w mp = ((c, w), some "InvariantViolation")) := by
  constructor
  · intro h
    simp [umountOp, h, push, runCmd]
  · intro h
    simp [umountOp, h]

/-- Witness for C8: unmounting the one recorded mount removes it before
the command runs; unmounting on an empty stack raises without running
anything. -/
theorem C8_witness :
    umountOp ctx1 w0 "/mnt1" =
      (({ ctx1 with mounts := ctx1.mounts.erase "/mnt1" },
        { w0 with events := w0.events ++ [Event.stackRemove "/mnt1", Event.cmd ["umount", "/mnt1"]],
                  liveMounts := w0.liveMounts.erase "/mnt1" }), none)
    ∧ umountOp ctx0 w0 "/mnt1" = ((ctx0, w0), some "InvariantViolation") :=
  ⟨(C8_umount_requires_membership ctx1 w0 "/mnt1").1 (by decide),
   (C8_umount_requires_membership ctx0 w0 "/mnt1").2 (by decide)⟩

end Livefs
